import Mathlib

/-!
# GC and memory monitoring server (`main.go`)

A shallow embedding of the eight Prometheus metric closures, of their
registration and of the HTTP routes set up in `main`, followed by the
properties proved about them.

Machine integers are natural numbers with explicit wrap-around: `uint32`
arithmetic is taken modulo `2^32`, `uint64` arithmetic modulo `2^64`.
An array access outside the array is a fault, as the Go run time panics there.
-/

set_option autoImplicit false

namespace GCMon

/-! ## Data model -/

/-- The fields of `runtime.MemStats` that `main.go` reads. `Alloc`, `TotalAlloc`,
`Sys`, `Mallocs`, `Frees` are `uint64`, `NumGC` is `uint32`, `PauseNs` is the
array `[256]uint64`. -/
structure MemStats where
  Alloc : Nat
  TotalAlloc : Nat
  Sys : Nat
  Mallocs : Nat
  Frees : Nat
  NumGC : Nat
  PauseNs : List Nat
deriving Repr, DecidableEq

/-- A well-formed `MemStats` value: every field is in the range of its Go type
and `PauseNs` has its 256 slots. -/
def MemStats.Valid (m : MemStats) : Prop :=
  m.Alloc < 2 ^ 64 ∧ m.TotalAlloc < 2 ^ 64 ∧ m.Sys < 2 ^ 64 ∧ m.Mallocs < 2 ^ 64 ∧
    m.Frees < 2 ^ 64 ∧ m.NumGC < 2 ^ 32 ∧ m.PauseNs.length = 256 ∧
    ∀ p ∈ m.PauseNs, p < 2 ^ 64

instance (m : MemStats) : Decidable m.Valid := by
  unfold MemStats.Valid; infer_instance

/-- The `float64` expressions the closures return, kept symbolic: the literal
`0`, a conversion `float64(n)` of an unsigned integer, and such a conversion
divided by the constant `1e9`. -/
inductive F64 where
  | zero : F64
  | ofUint (n : Nat) : F64
  | ofUintDivE9 (n : Nat) : F64
deriving Repr, DecidableEq

/-- The real number an `F64` expression denotes, before rounding to binary64. -/
def F64.val : F64 → ℚ
  | .zero => 0
  | .ofUint n => n
  | .ofUintDivE9 n => (n : ℚ) / 1000000000

/-- Ways a closure can fail to return: a run-time panic on an array index out of
range, or (in the model only) a loop that used up its iteration budget. -/
inductive Fault where
  | indexOutOfRange : Fault
  | outOfFuel : Fault
deriving Repr, DecidableEq

deriving instance DecidableEq for Except

/-- Go array indexing `a[i]`: a fault when `i` is not below the length. -/
def index (a : List Nat) (i : Nat) : Except Fault Nat :=
  match a[i]? with
  | some v => .ok v
  | none => .error .indexOutOfRange

/-! ## The closures of the eight metrics, as functions of the snapshot read -/

/-- Body of the `memAlloc` closure: `float64(m.Alloc)`. -/
def memAllocOf (m : MemStats) : Except Fault F64 := .ok (.ofUint m.Alloc)

/-- Body of the `memSys` closure: `float64(m.Sys)`. -/
def memSysOf (m : MemStats) : Except Fault F64 := .ok (.ofUint m.Sys)

/-- Body of the `totalAlloc` closure: `float64(m.TotalAlloc)`. -/
def totalAllocOf (m : MemStats) : Except Fault F64 := .ok (.ofUint m.TotalAlloc)

/-- Body of the `mallocs` closure: `float64(m.Mallocs)`. -/
def mallocsOf (m : MemStats) : Except Fault F64 := .ok (.ofUint m.Mallocs)

/-- Body of the `frees` closure: `float64(m.Frees)`. -/
def freesOf (m : MemStats) : Except Fault F64 := .ok (.ofUint m.Frees)

/-- Body of the `gcCycles` closure: `float64(m.NumGC)`. -/
def gcCyclesOf (m : MemStats) : Except Fault F64 := .ok (.ofUint m.NumGC)

/-- The index expression `(m.NumGC+255)%256` of `lastGCPause`, the addition
being a `uint32` addition. -/
def lastPauseIndex (numGC : Nat) : Nat := (numGC + 255) % 2 ^ 32 % 256

/-- Body of the `lastGCPause` closure:
`if m.NumGC == 0 { return 0 }; return float64(m.PauseNs[(m.NumGC+255)%256]) / 1e9`. -/
def lastGCPauseOf (m : MemStats) : Except Fault F64 :=
  if m.NumGC = 0 then .ok .zero
  else
    match index m.PauseNs (lastPauseIndex m.NumGC) with
    | .ok p => .ok (.ofUintDivE9 p)
    | .error e => .error e

/-- The `uint64` addition of `total += p`. -/
def addU64 (total p : Nat) : Nat := (total + p) % 2 ^ 64

/-- The loop `for i := uint32(0); i < m.NumGC && i < 256; i++ { total += m.PauseNs[i] }`
of `totalGCPause`, started in the state `(i, total)`; it returns the state in
which the loop condition fails. `i++` is a `uint32` increment and `total +=` a
`uint64` addition. Each unit of `fuel` pays for one evaluation of the loop
condition. -/
def pauseLoop (m : MemStats) : Nat → Nat → Nat → Except Fault (Nat × Nat)
  | 0, _, _ => .error .outOfFuel
  | fuel + 1, i, total =>
    if i < m.NumGC ∧ i < 256 then
      match index m.PauseNs i with
      | .ok p => pauseLoop m fuel ((i + 1) % 2 ^ 32) (addU64 total p)
      | .error e => .error e
    else .ok (i, total)

/-- Number of slots the loop of `totalGCPause` visits: `min(NumGC, 256)`. -/
def window (m : MemStats) : Nat := min m.NumGC 256

/-- Iteration budget given to the loop of `totalGCPause`: 256 iterations and
the final, failing evaluation of the condition. -/
def loopFuel : Nat := 257

/-- The integer `total` of `totalGCPause` when the loop is left (nanoseconds). -/
def totalPauseNs (m : MemStats) : Except Fault Nat :=
  match pauseLoop m loopFuel 0 0 with
  | .ok s => .ok s.2
  | .error e => .error e

/-- Body of the `totalGCPause` closure: the loop, then `float64(total) / 1e9`. -/
def totalGCPauseOf (m : MemStats) : Except Fault F64 :=
  match totalPauseNs m with
  | .ok total => .ok (.ofUintDivE9 total)
  | .error e => .error e

/-! ## Sampling: every closure reads its own snapshot -/

/-- The Go run time as the closures see it: `stats k` is the snapshot that the
`k`-th call of `runtime.ReadMemStats` fills in, `calls` counts the calls made
so far. -/
structure Runtime where
  stats : Nat → MemStats
  calls : Nat

/-- The call `runtime.ReadMemStats(&m)`: the snapshot of this call, and the run
time with one more call made. -/
def ReadMemStats (rt : Runtime) : MemStats × Runtime :=
  (rt.stats rt.calls, { rt with calls := rt.calls + 1 })

/-- A closure passed to `NewGaugeFunc` or `NewCounterFunc`. -/
abbrev Closure := Runtime → Except Fault F64 × Runtime

/-- Closure of `memAlloc`. -/
def memAllocFn : Closure := fun rt =>
  let r := ReadMemStats rt
  (memAllocOf r.1, r.2)

/-- Closure of `memSys`. -/
def memSysFn : Closure := fun rt =>
  let r := ReadMemStats rt
  (memSysOf r.1, r.2)

/-- Closure of `totalAlloc`. -/
def totalAllocFn : Closure := fun rt =>
  let r := ReadMemStats rt
  (totalAllocOf r.1, r.2)

/-- Closure of `mallocs`. -/
def mallocsFn : Closure := fun rt =>
  let r := ReadMemStats rt
  (mallocsOf r.1, r.2)

/-- Closure of `frees`. -/
def freesFn : Closure := fun rt =>
  let r := ReadMemStats rt
  (freesOf r.1, r.2)

/-- Closure of `gcCycles`. -/
def gcCyclesFn : Closure := fun rt =>
  let r := ReadMemStats rt
  (gcCyclesOf r.1, r.2)

/-- Closure of `lastGCPause`. -/
def lastGCPauseFn : Closure := fun rt =>
  let r := ReadMemStats rt
  (lastGCPauseOf r.1, r.2)

/-- Closure of `totalGCPause`. -/
def totalGCPauseFn : Closure := fun rt =>
  let r := ReadMemStats rt
  (totalGCPauseOf r.1, r.2)

/-! ## Metric definitions and registration -/

/-- The two constructors used: `NewGaugeFunc` and `NewCounterFunc`. -/
inductive Kind where
  | Gauge : Kind
  | Counter : Kind
deriving Repr, DecidableEq

/-- A metric as built in `main`: the `Name` and `Help` of its options, the
constructor used, and its closure. -/
structure Metric where
  Name : String
  Help : String
  kind : Kind
  fn : Closure

/-- Metric `memAlloc`. -/
def memAlloc : Metric :=
  ⟨"go_mem_alloc_bytes", "Current memory allocated (bytes)", .Gauge, memAllocFn⟩

/-- Metric `memSys`. -/
def memSys : Metric :=
  ⟨"go_mem_sys_bytes", "Total memory obtained from OS (bytes)", .Gauge, memSysFn⟩

/-- Metric `totalAlloc`. -/
def totalAlloc : Metric :=
  ⟨"go_mem_total_alloc_bytes", "Total memory allocated (bytes)", .Counter, totalAllocFn⟩

/-- Metric `mallocs`. -/
def mallocs : Metric :=
  ⟨"go_mem_mallocs_total", "Total number of mallocs", .Counter, mallocsFn⟩

/-- Metric `frees`. -/
def frees : Metric :=
  ⟨"go_mem_frees_total", "Total number of frees", .Counter, freesFn⟩

/-- Metric `gcCycles`. -/
def gcCycles : Metric :=
  ⟨"go_gc_cycles_total", "Total number of completed GC cycles", .Counter, gcCyclesFn⟩

/-- Metric `lastGCPause`. -/
def lastGCPause : Metric :=
  ⟨"go_gc_last_pause_seconds", "Duration of last GC pause in seconds", .Gauge, lastGCPauseFn⟩

/-- Metric `totalGCPause`. -/
def totalGCPause : Metric :=
  ⟨"go_gc_pause_total_seconds", "Total GC pause duration (seconds)", .Counter, totalGCPauseFn⟩

/-- Argument list of the call `prometheus.MustRegister(...)`, in its order. -/
def registered : List Metric :=
  [memAlloc, memSys, totalAlloc, mallocs, frees, gcCycles, lastGCPause, totalGCPause]

/-- Modelled from the spec: the scrape loop, which belongs to the metrics
library and is not part of the repository. On each scrape every registered
closure is invoked once; the order is not fixed by the library, so it is a
parameter here. Each closure makes its call of `ReadMemStats`, and the run time
serves these calls one after the other. `order` lists the closures in the order in which
their calls are served: the closure in position `k` gets call number
`calls + k`. Result `k` pairs the name of that metric with what its closure
returned. Nothing here depends on the order of registration. -/
def scrape : List Metric → Runtime → List (String × Except Fault F64) × Runtime
  | [], rt => ([], rt)
  | d :: ds, rt =>
    let r := d.fn rt
    let rest := scrape ds r.2
    ((d.Name, r.1) :: rest.1, rest.2)

/-- First character allowed in a metric name of the exposition format:
`[a-zA-Z_:]`. -/
def nameStartChar (c : Char) : Bool :=
  c.isAlpha || c == '_' || c == ':'

/-- Later character allowed in a metric name of the exposition format:
`[a-zA-Z0-9_:]`. -/
def nameChar (c : Char) : Bool :=
  c.isAlpha || c.isDigit || c == '_' || c == ':'

/-- A name is safe for the exposition format when it is not empty, starts with a
character of `[a-zA-Z_:]` and goes on with characters of `[a-zA-Z0-9_:]`. -/
def expositionSafe (name : String) : Bool :=
  match name.toList with
  | [] => false
  | c :: cs => nameStartChar c && cs.all nameChar

/-! ## The run time's pause ring buffer -/

/-- The ring-buffer rule of the run time, for one completed GC cycle with
stop-the-world pause `p`: with `NumGC` cycles completed before, this is cycle
`k = NumGC + 1` and its pause goes to slot `(k - 1) mod 256`; `NumGC` is then
incremented as a `uint32`. -/
def gcCycle (m : MemStats) (p : Nat) : MemStats :=
  { m with PauseNs := m.PauseNs.set (m.NumGC % 256) p, NumGC := (m.NumGC + 1) % 2 ^ 32 }

/-- Statistics of a process that has not run a GC cycle yet. -/
def bootStats : MemStats := ⟨0, 0, 0, 0, 0, 0, List.replicate 256 0⟩

/-- Statistics after the GC cycles with pauses `ps`, oldest first, starting
from `m`. -/
def runCycles (m : MemStats) (ps : List Nat) : MemStats := ps.foldl gcCycle m

/-! ## HTTP routes

`main` registers two patterns on the default `ServeMux` of `net/http` and serves
with it. The mux is part of the Go library, not of the repository; it is
modelled here after its documented behaviour, for patterns without wildcards
and without a host, the only ones that occur. -/

/-- What answers a request: the Prometheus handler, the help banner written by
the function registered on `/`, a handler registered by an imported package
(named by its pattern), a redirect answered by the mux itself, or the
method-not-allowed and not-found answers of the HTTP library. -/
inductive Handler where
  | metrics : Handler
  | helpBanner : Handler
  | imported (pattern : String) : Handler
  | redirect (target : String) : Handler
  | methodNotAllowed : Handler
  | notFound : Handler
deriving Repr, DecidableEq

/-- A pattern registered on the mux: an optional method, the path, and the
handler. -/
structure Pattern where
  method : Option String
  path : String
  handler : Handler
deriving Repr, DecidableEq

/-- The lines the function registered on `/` writes; its status is the default,
200. -/
def helpBannerText : List String :=
  ["GC and Memory Monitoring Server\n",
   "Visit /metrics for Prometheus metrics\n",
   "Visit /debug/pprof/ for profiling\n"]

/-- The pattern of `http.HandleFunc("/", ...)`. -/
def rootPattern : Pattern := ⟨none, "/", Handler.helpBanner⟩

/-- The two registrations of `main`: `http.Handle("/metrics", ...)` and
`http.HandleFunc("/", ...)`. -/
def mainPatterns : List Pattern :=
  [⟨none, "/metrics", Handler.metrics⟩, rootPattern]

/-- The default mux when the server starts: the patterns `imports` that the
packages imported by `main.go` registered when they were initialised, then the
two of `main`. -/
def muxEntries (imports : List Pattern) : List Pattern := imports ++ mainPatterns

/-- Patterns a current Go release registers for the imports of `main.go`: those
of `net/http/pprof`, and `/debug/vars` of `expvar`, which the metrics library
imports. -/
def knownImports : List Pattern :=
  [⟨some "GET", "/debug/pprof/", Handler.imported "/debug/pprof/"⟩,
   ⟨some "GET", "/debug/pprof/cmdline", Handler.imported "/debug/pprof/cmdline"⟩,
   ⟨some "GET", "/debug/pprof/profile", Handler.imported "/debug/pprof/profile"⟩,
   ⟨some "GET", "/debug/pprof/symbol", Handler.imported "/debug/pprof/symbol"⟩,
   ⟨some "GET", "/debug/pprof/trace", Handler.imported "/debug/pprof/trace"⟩,
   ⟨some "GET", "/debug/vars", Handler.imported "/debug/vars"⟩]

/-- The pieces of a path between its slashes. -/
def splitSlash : List Char → List (List Char)
  | [] => [[]]
  | c :: cs =>
    match splitSlash cs with
    | [] => [[]]
    | seg :: segs => if c = '/' then [] :: seg :: segs else (c :: seg) :: segs

/-- The segments of a rooted path after cleaning: empty segments and `.` are
dropped, `..` removes the segment kept before it, if any. `kept` holds the
segments kept so far, last first. -/
def cleanSegments : List (List Char) → List (List Char) → List (List Char)
  | [], kept => kept.reverse
  | s :: rest, kept =>
    if s = [] ∨ s = ['.'] then cleanSegments rest kept
    else if s = ['.', '.'] then cleanSegments rest kept.tail
    else cleanSegments rest (s :: kept)

/-- The library's `path.Clean` on a rooted path. -/
def pathClean (p : List Char) : List Char :=
  '/' :: List.intercalate ['/'] (cleanSegments (splitSlash p) [])

/-- The canonical form the mux gives a request path (`cleanPath` of `net/http`):
the empty path becomes `/`, a leading `/` is added when missing, the path is
cleaned, and a trailing `/` is kept. -/
def cleanPath (p : String) : String :=
  if p = "" then "/"
  else
    let q := if p.toList.head? = some '/' then p.toList else '/' :: p.toList
    let np := pathClean q
    if q.getLast? = some '/' ∧ np ≠ ['/'] then String.mk (np ++ ['/']) else String.mk np

/-- A pattern that ends in `/` names a subtree: it matches every path it is a
prefix of. -/
def isSubtree (pattern : String) : Bool :=
  pattern.toList.getLast? = some '/'

/-- A pattern path matches a request path when they are equal, or when the
pattern names a subtree and is a prefix of the path. -/
def matchesPath (pattern path : String) : Bool :=
  pattern = path || (isSubtree pattern && pattern.toList.isPrefixOf path.toList)

/-- A pattern without method matches every method; a pattern with a method
matches that method, and `GET` also matches `HEAD`. -/
def matchesMethod (pm : Option String) (method : String) : Bool :=
  match pm with
  | none => true
  | some x => x = method || (x = "GET" && method = "HEAD")

/-- Precedence between two patterns that match the same request: the more
specific one wins, that is the one with the longer path, and for equal paths
the one that names a method. (The mux refuses to register two patterns of which
neither is more specific, so this decides every case that can arise.) -/
def wins (a b : Pattern) : Bool :=
  b.path.length < a.path.length ||
    (b.path.length = a.path.length && a.method.isSome && b.method.isNone)

/-- The pattern of `es` that serves the request `method path`, if any; `best`
is the winner among the patterns looked at so far. -/
def bestMatch (method path : String) : List Pattern → Option Pattern → Option Pattern
  | [], best => best
  | e :: es, best =>
    if matchesMethod e.method method && matchesPath e.path path then
      match best with
      | some b => if wins e b then bestMatch method path es (some e)
                  else bestMatch method path es best
      | none => bestMatch method path es (some e)
    else bestMatch method path es best

/-- Whether the pattern found matches the whole path rather than a subtree
above it. -/
def exactMatch (n : Option Pattern) (path : String) : Bool :=
  match n with
  | some p => p.path = path
  | none => false

/-- How the mux answers a request whose target is the path `path`. The path is
put in canonical form (not for `CONNECT`). When the path has no exact match and no trailing slash but the path
with a slash appended has an exact match, the answer is a redirect to it. When
the canonical form differs from the path requested, the answer is a redirect
to the canonical form. Otherwise the winning pattern answers; without one, the
answer is method-not-allowed when some pattern matches the path under another
method, and not-found when none does. -/
def serve (es : List Pattern) (method path : String) : Handler :=
  let cp := if method = "CONNECT" then path else cleanPath path
  let n := bestMatch method cp es none
  if !exactMatch n cp && !(cp.toList.getLast? = some '/') &&
      exactMatch (bestMatch method (cp ++ "/") es none) (cp ++ "/") then
    Handler.redirect (cp ++ "/")
  else if cp ≠ path then Handler.redirect cp
  else
    match n with
    | some p => p.handler
    | none =>
      if es.any (fun e => matchesPath e.path cp) then Handler.methodNotAllowed
      else Handler.notFound

/-- The answer of the server to a request, given the patterns of the imports. -/
def route (imports : List Pattern) (method path : String) : Handler :=
  serve (muxEntries imports) method path

/-! ## Concrete snapshots and run times used as instances -/

/-- A snapshot taken after 300 GC cycles. -/
def stats300 : MemStats :=
  ⟨4096, 1048576, 8192, 900, 700, 300, List.replicate 256 1000⟩

/-- A snapshot taken after 3 GC cycles with pauses 11, 22 and 33 ns. -/
def stats3 : MemStats :=
  ⟨4096, 1048576, 8192, 900, 700, 3, [11, 22, 33] ++ List.replicate 253 0⟩

/-- A snapshot taken before the first GC cycle, with arbitrary buffer contents. -/
def stats0 : MemStats :=
  ⟨4096, 1048576, 8192, 900, 700, 0, List.replicate 256 77⟩

/-- A snapshot taken after 256 GC cycles that each paused for one second. -/
def statsBefore : MemStats :=
  ⟨4096, 1048576, 8192, 900, 700, 256, List.replicate 256 1000000000⟩

/-- The next snapshot of the same process: one more GC cycle, with a pause of
0 ns, has run. -/
def statsAfter : MemStats := gcCycle statsBefore 0

/-- A run time in which the first GC cycle, with a pause of 7000 ns, completes
just before call number `t` of `ReadMemStats`: the calls before `t` see a
process without a cycle, the calls from `t` on a process with one. -/
def skewedRuntime (t : Nat) : Runtime :=
  ⟨fun k => if k < t then bootStats else gcCycle bootStats 7000, 0⟩

set_option maxRecDepth 100000

/-! ## Auxiliary facts -/

theorem index_of_lt (a : List Nat) (i : Nat) (h : i < a.length) :
    index a i = .ok (a.getD i 0) := by
  simp [index, List.getD, List.getElem?_eq_getElem h]

theorem foldl_addU64 (l : List Nat) (a : Nat) :
    l.foldl addU64 (a % 2 ^ 64) = (a + l.sum) % 2 ^ 64 := by
  induction l generalizing a with
  | nil => simp
  | cons p l ih =>
    have h := ih (a % 2 ^ 64 + p)
    simp only [List.foldl_cons, List.sum_cons, addU64]
    rw [h]
    omega

/-- With fuel for the iterations left, the loop started at `i` ends at
`i = min(NumGC, 256)` having added slots `i ..` of the window to `total`. -/
theorem pauseLoop_run (m : MemStats) (hlen : m.PauseNs.length = 256) :
    ∀ (fuel i total : Nat), i ≤ window m → window m - i < fuel →
      pauseLoop m fuel i total =
        .ok (window m, ((m.PauseNs.take (window m)).drop i).foldl addU64 total) := by
  intro fuel
  induction fuel with
  | zero => intro i total _ h; omega
  | succ fuel ih =>
    intro i total hi hfuel
    have hw : window m ≤ 256 := by unfold window; omega
    by_cases hc : i < m.NumGC ∧ i < 256
    · have hiw : i < window m := by unfold window; omega
      have hil : i < m.PauseNs.length := by omega
      have hmod : (i + 1) % 2 ^ 32 = i + 1 := by omega
      have hlt : i < (m.PauseNs.take (window m)).length := by
        simp [List.length_take]; omega
      rw [pauseLoop, if_pos hc, index_of_lt _ _ hil, hmod]
      simp only []
      rw [ih (i + 1) _ (by omega) (by omega)]
      rw [List.drop_eq_getElem_cons hlt, List.foldl_cons]
      simp [List.getD, List.getElem?_eq_getElem hil, List.getElem_take]
    · have hiw : i = window m := by unfold window at *; omega
      have hnil : (m.PauseNs.take (window m)).drop (window m) = [] :=
        List.drop_eq_nil_of_le (by simp [List.length_take])
      rw [pauseLoop, if_neg hc, hiw, hnil, List.foldl_nil]

theorem totalPauseNs_eq (m : MemStats) (hlen : m.PauseNs.length = 256) :
    totalPauseNs m = .ok ((m.PauseNs.take (min m.NumGC 256)).foldl addU64 0) := by
  have h := pauseLoop_run m hlen loopFuel 0 0 (Nat.zero_le _)
    (by unfold window loopFuel; omega)
  simp only [totalPauseNs, h, List.drop_zero, window]

theorem totalGCPauseOf_eq (m : MemStats) (hlen : m.PauseNs.length = 256) :
    totalGCPauseOf m =
      .ok (.ofUintDivE9 ((m.PauseNs.take (min m.NumGC 256)).foldl addU64 0)) := by
  simp only [totalGCPauseOf, totalPauseNs_eq m hlen]

theorem lastPauseIndex_eq (n : Nat) (h : 1 ≤ n) : lastPauseIndex n = (n - 1) % 256 := by
  unfold lastPauseIndex; omega

theorem lastGCPauseOf_eq (m : MemStats) (hlen : m.PauseNs.length = 256)
    (h : 1 ≤ m.NumGC) :
    lastGCPauseOf m = .ok (.ofUintDivE9 (m.PauseNs.getD ((m.NumGC - 1) % 256) 0)) := by
  have hne : ¬ m.NumGC = 0 := by omega
  have hlt : lastPauseIndex m.NumGC < m.PauseNs.length := by
    unfold lastPauseIndex; omega
  rw [lastGCPauseOf, if_neg hne, index_of_lt _ _ hlt, lastPauseIndex_eq _ h]

theorem runCycles_concat (m : MemStats) (ps : List Nat) (p : Nat) :
    runCycles m (ps ++ [p]) = gcCycle (runCycles m ps) p := by
  simp [runCycles, List.foldl_append]

/-- After the cycles `ps` of a fresh process the counter is the number of cycles,
the buffer keeps its 256 slots, and each of the last 256 cycles `t` (counted
from 0) is found in slot `t % 256`. -/
theorem ring_invariant (ps : List Nat) (hn : ps.length < 2 ^ 32) :
    (runCycles bootStats ps).NumGC = ps.length ∧
      (runCycles bootStats ps).PauseNs.length = 256 ∧
      ∀ t, t < ps.length → ps.length ≤ t + 256 →
        (runCycles bootStats ps).PauseNs[t % 256]? = ps[t]? := by
  induction ps using List.reverseRecOn with
  | nil =>
    refine ⟨rfl, ?_, fun t h => by simp at h⟩
    show (List.replicate 256 0).length = 256
    exact List.length_replicate _ _
  | append_singleton ps p ih =>
    have hlen : (ps ++ [p]).length = ps.length + 1 := by simp
    rw [hlen] at hn
    obtain ⟨hc, hl, hs⟩ := ih (by omega)
    rw [runCycles_concat, hlen]
    refine ⟨?_, ?_, ?_⟩
    · simp only [gcCycle, hc]; omega
    · simp [gcCycle, hl]
    · intro t ht hwin
      simp only [gcCycle, hc]
      by_cases hlast : t = ps.length
      · subst hlast
        rw [List.getElem?_set_self (by rw [hl]; omega)]
        simp
      · have hne : ps.length % 256 ≠ t % 256 := by omega
        rw [List.getElem?_set_ne hne, hs t (by omega) (by omega)]
        rw [List.getElem?_append_left (by omega)]

/-- The slots summed by `totalGCPause` hold, in some order, the pauses of the
`min n 256` most recent of the `n` cycles run. -/
theorem ring_recent (ps : List Nat) (hn : ps.length < 2 ^ 32) :
    ((runCycles bootStats ps).PauseNs.take (min ps.length 256)).Perm
      (ps.drop (ps.length - min ps.length 256)) := by
  obtain ⟨_, hl, hs⟩ := ring_invariant ps hn
  by_cases hsmall : ps.length ≤ 256
  · have hmin : min ps.length 256 = ps.length := by omega
    rw [hmin, Nat.sub_self, List.drop_zero]
    have heq : (runCycles bootStats ps).PauseNs.take ps.length = ps := by
      apply List.ext_getElem?
      intro j
      by_cases hj : j < ps.length
      · rw [List.getElem?_take_of_lt hj]
        have := hs j hj (by omega)
        rwa [Nat.mod_eq_of_lt (by omega)] at this
      · rw [List.getElem?_eq_none (by simp [List.length_take]; omega),
          List.getElem?_eq_none (by omega)]
    rw [heq]
  · have hmin : min ps.length 256 = 256 := by omega
    rw [hmin, List.take_of_length_le (by omega)]
    have hdl : (ps.drop (ps.length - 256)).length = 256 := by
      simp [List.length_drop]; omega
    have heq : (runCycles bootStats ps).PauseNs =
        (ps.drop (ps.length - 256)).rotate (256 - ps.length % 256) := by
      apply List.ext_getElem?
      intro j
      by_cases hj : j < 256
      · rw [List.getElem?_rotate (by omega), hdl, List.getElem?_drop]
        have hslot := hs (ps.length - 256 + (j + (256 - ps.length % 256)) % 256)
          (by omega) (by omega)
        have hidx : (ps.length - 256 + (j + (256 - ps.length % 256)) % 256) % 256 = j := by
          omega
        rw [hidx] at hslot
        exact hslot
      · rw [List.getElem?_eq_none (by omega),
          List.getElem?_eq_none (by rw [List.length_rotate]; omega)]
    rw [heq]
    exact List.rotate_perm _ _

/-! ## Ring-buffer windowing of the pause total -/

/-- C1. For every well-formed snapshot the integer `total` of `totalGCPause` is
the `uint64` sum of the slots `0 .. min(NumGC, 256) - 1` of `PauseNs`, and the
closure returns it divided by `1e9`; with `NumGC = 300` it is the sum of all
256 slots; overwriting a slot of index `>= NumGC` changes nothing. Under the
ring-buffer rule, after the cycles `ps` of a fresh process the summed slots
hold exactly the `min(NumGC, 256)` most recent pauses. -/
theorem totalGCPause_window (m : MemStats) (hm : m.Valid) (ps : List Nat)
    (hn : ps.length < 2 ^ 32) :
    totalPauseNs m = .ok ((m.PauseNs.take (min m.NumGC 256)).foldl addU64 0) ∧
    totalGCPauseOf m =
      .ok (.ofUintDivE9 ((m.PauseNs.take (min m.NumGC 256)).foldl addU64 0)) ∧
    (m.PauseNs.take (min m.NumGC 256)).length = min m.NumGC 256 ∧
    (m.NumGC = 300 → totalPauseNs m = .ok (m.PauseNs.foldl addU64 0)) ∧
    (∀ j v, m.NumGC ≤ j →
      totalPauseNs { m with PauseNs := m.PauseNs.set j v } = totalPauseNs m) ∧
    (runCycles bootStats ps).NumGC = ps.length ∧
    ((runCycles bootStats ps).PauseNs.take (min (runCycles bootStats ps).NumGC 256)).Perm
      (ps.drop (ps.length - min ps.length 256)) := by
  have hlen : m.PauseNs.length = 256 := hm.2.2.2.2.2.2.1
  refine ⟨totalPauseNs_eq m hlen, totalGCPauseOf_eq m hlen, ?_, ?_, ?_, ?_, ?_⟩
  · rw [List.length_take, hlen]; omega
  · intro h300
    rw [totalPauseNs_eq m hlen, h300, List.take_of_length_le (by omega)]
  · intro j v hj
    rw [totalPauseNs_eq m hlen, totalPauseNs_eq _ (by simp [hlen])]
    have htake : ((m.PauseNs.set j v).take (min m.NumGC 256)) =
        m.PauseNs.take (min m.NumGC 256) := by
      apply List.ext_getElem?
      intro i
      by_cases hi : i < min m.NumGC 256
      · rw [List.getElem?_take_of_lt hi, List.getElem?_take_of_lt hi,
          List.getElem?_set_ne (by omega)]
      · rw [List.getElem?_eq_none (by simp [List.length_take]; omega),
          List.getElem?_eq_none (by simp [List.length_take]; omega)]
    simp only [htake]
  · exact (ring_invariant ps hn).1
  · rw [(ring_invariant ps hn).1]
    exact ring_recent ps hn

/-- Instance of C1 at a snapshot with 300 cycles and at a history of three
cycles. -/
theorem totalGCPause_window_witness :
    stats300.Valid ∧ [11, 22, 33].length < 2 ^ 32 ∧
      totalPauseNs stats300 = .ok (stats300.PauseNs.foldl addU64 0) ∧
      totalPauseNs stats300 = .ok 256000 :=
  ⟨by decide, by decide,
    (totalGCPause_window stats300 (by decide) [11, 22, 33] (by decide)).2.2.2.1 rfl,
    by decide⟩

/-! ## Index of the last pause -/

/-- C2. For every well-formed snapshot with `NumGC >= 1`, the index
`(NumGC + 255) % 256` computed with a `uint32` addition equals
`(NumGC - 1) mod 256` and is below 256, `lastGCPause` returns that slot divided
by `1e9`, and when the snapshot results from a GC cycle with pause `p` under the
ring-buffer rule, that slot holds `p`. Counts 1, 255, 256, 257 read slots 0, 254,
255, 0, and the counts whose addition wraps past `2^32` obey the same rule. -/
theorem lastGCPause_index (m : MemStats) (hm : m.Valid) (h1 : 1 ≤ m.NumGC) :
    lastPauseIndex m.NumGC = (m.NumGC - 1) % 256 ∧
    lastPauseIndex m.NumGC < m.PauseNs.length ∧
    lastGCPauseOf m = .ok (.ofUintDivE9 (m.PauseNs.getD ((m.NumGC - 1) % 256) 0)) ∧
    (∀ prev p, prev.Valid → gcCycle prev p = m →
      prev.NumGC % 256 = lastPauseIndex m.NumGC ∧
      lastGCPauseOf m = .ok (.ofUintDivE9 p)) ∧
    (2 ^ 32 - 255 ≤ m.NumGC → 2 ^ 32 ≤ m.NumGC + 255 ∧
      lastPauseIndex m.NumGC = (m.NumGC - 1) % 256) ∧
    lastPauseIndex 1 = 0 ∧ lastPauseIndex 255 = 254 ∧ lastPauseIndex 256 = 255 ∧
    lastPauseIndex 257 = 0 := by
  have hlen : m.PauseNs.length = 256 := hm.2.2.2.2.2.2.1
  refine ⟨lastPauseIndex_eq _ h1, ?_, lastGCPauseOf_eq m hlen h1, ?_, ?_,
    by decide, by decide, by decide, by decide⟩
  · unfold lastPauseIndex; omega
  · intro prev p hprev hstep
    have hplen : prev.PauseNs.length = 256 := hprev.2.2.2.2.2.2.1
    have hnum : m.NumGC = (prev.NumGC + 1) % 2 ^ 32 := by rw [← hstep]; rfl
    have hbuf : m.PauseNs = prev.PauseNs.set (prev.NumGC % 256) p := by rw [← hstep]; rfl
    have hidx : prev.NumGC % 256 = lastPauseIndex m.NumGC := by
      unfold lastPauseIndex; omega
    refine ⟨hidx, ?_⟩
    rw [lastGCPauseOf_eq m hlen h1, ← lastPauseIndex_eq _ h1, ← hidx, hbuf]
    have hin : prev.NumGC % 256 < prev.PauseNs.length := by omega
    simp [List.getD, List.getElem?_set_self hin]
  · intro hbig
    exact ⟨by omega, lastPauseIndex_eq _ h1⟩

/-- Instance of C2 at a snapshot with three cycles: slot 2 is read. -/
theorem lastGCPause_index_witness :
    stats3.Valid ∧ 1 ≤ stats3.NumGC ∧ lastPauseIndex stats3.NumGC = 2 ∧
      lastGCPauseOf stats3 = .ok (.ofUintDivE9 33) :=
  ⟨by decide, by decide, (lastGCPause_index stats3 (by decide) (by decide)).1,
    (lastGCPause_index stats3 (by decide) (by decide)).2.2.1⟩

/-! ## Zero-cycle default -/

/-- C3. For every snapshot with `NumGC = 0`, whatever stands in `PauseNs` (even
a buffer on which any read would fault), `lastGCPause` returns the literal `0`,
an expression without a division, and `totalGCPause` returns `float64(0) / 1e9`,
whose value is 0. -/
theorem zero_cycle_default (m : MemStats) (h0 : m.NumGC = 0) :
    lastGCPauseOf m = .ok .zero ∧
    (∀ buf, lastGCPauseOf { m with PauseNs := buf } = .ok .zero) ∧
    F64.zero.val = 0 ∧
    totalPauseNs m = .ok 0 ∧
    (∀ buf, totalGCPauseOf { m with PauseNs := buf } = .ok (.ofUintDivE9 0)) ∧
    (F64.ofUintDivE9 0).val = 0 := by
  have hloop : ∀ buf, pauseLoop { m with PauseNs := buf } loopFuel 0 0 = .ok (0, 0) := by
    intro buf
    simp [loopFuel, pauseLoop, h0]
  refine ⟨by simp [lastGCPauseOf, h0], fun buf => by simp [lastGCPauseOf, h0], rfl, ?_,
    ?_, by simp [F64.val]⟩
  · have := hloop m.PauseNs
    simp only [totalPauseNs, this]
  · intro buf
    simp only [totalGCPauseOf, totalPauseNs, hloop buf]

/-- Instance of C3 at a snapshot with no cycle and a buffer full of 77. -/
theorem zero_cycle_default_witness :
    stats0.NumGC = 0 ∧ lastGCPauseOf stats0 = .ok .zero ∧
      totalGCPauseOf { stats0 with PauseNs := [] } = .ok (.ofUintDivE9 0) :=
  ⟨rfl, (zero_cycle_default stats0 rfl).1, (zero_cycle_default stats0 rfl).2.2.2.2.1 []⟩

/-! ## Totality -/

/-- C5. On every well-formed snapshot each of the eight closures returns a value:
none faults, whether taken as a function of the snapshot or as the registered
closure that reads it. The index of `lastGCPause` is inside `PauseNs`, every index the
summing loop reads is inside `PauseNs`, and with any budget of at least 257
condition evaluations the loop ends, after `min(NumGC, 256) <= 256` iterations. -/
theorem closures_total (m : MemStats) (hm : m.Valid) :
    (∃ v, memAllocOf m = .ok v) ∧ (∃ v, memSysOf m = .ok v) ∧
    (∃ v, totalAllocOf m = .ok v) ∧ (∃ v, mallocsOf m = .ok v) ∧
    (∃ v, freesOf m = .ok v) ∧ (∃ v, gcCyclesOf m = .ok v) ∧
    (∃ v, lastGCPauseOf m = .ok v) ∧ (∃ v, totalGCPauseOf m = .ok v) ∧
    lastPauseIndex m.NumGC < 256 ∧
    (∀ i, i < m.NumGC ∧ i < 256 → ∃ p, index m.PauseNs i = .ok p) ∧
    (∀ fuel, 257 ≤ fuel → ∃ n total,
      pauseLoop m fuel 0 0 = .ok (n, total) ∧ n = min m.NumGC 256 ∧ n ≤ 256) ∧
    (∀ rt : Runtime, rt.stats rt.calls = m → ∀ d ∈ registered, ∃ v, (d.fn rt).1 = .ok v) := by
  have hlen : m.PauseNs.length = 256 := hm.2.2.2.2.2.2.1
  have hlast : ∃ v, lastGCPauseOf m = .ok v := by
    by_cases h0 : m.NumGC = 0
    · exact ⟨.zero, by simp [lastGCPauseOf, h0]⟩
    · exact ⟨_, lastGCPauseOf_eq m hlen (by omega)⟩
  have htotal : ∃ v, totalGCPauseOf m = .ok v := ⟨_, totalGCPauseOf_eq m hlen⟩
  refine ⟨⟨_, rfl⟩, ⟨_, rfl⟩, ⟨_, rfl⟩, ⟨_, rfl⟩, ⟨_, rfl⟩, ⟨_, rfl⟩, hlast, htotal,
    ?_, ?_, ?_, ?_⟩
  rotate_left 3
  · intro rt hrt d hd
    simp only [registered, List.mem_cons, List.mem_singleton, List.not_mem_nil,
      or_false] at hd
    rcases hd with h | h | h | h | h | h | h | h <;> subst h
    · exact ⟨_, rfl⟩
    · exact ⟨_, rfl⟩
    · exact ⟨_, rfl⟩
    · exact ⟨_, rfl⟩
    · exact ⟨_, rfl⟩
    · exact ⟨_, rfl⟩
    · simpa only [lastGCPause, lastGCPauseFn, ReadMemStats, hrt] using hlast
    · simpa only [totalGCPause, totalGCPauseFn, ReadMemStats, hrt] using htotal
  · unfold lastPauseIndex; omega
  · intro i hi
    exact ⟨_, index_of_lt _ _ (by omega)⟩
  · intro fuel hfuel
    refine ⟨_, _, pauseLoop_run m hlen fuel 0 0 (Nat.zero_le _)
      (by unfold window; omega), rfl, ?_⟩
    unfold window; omega

/-- Instance of C5 at a snapshot with 300 cycles. -/
theorem closures_total_witness :
    stats300.Valid ∧ (∃ v, lastGCPauseOf stats300 = .ok v) ∧
      (∃ v, totalGCPauseOf stats300 = .ok v) :=
  ⟨by decide, (closures_total stats300 (by decide)).2.2.2.2.2.2.1,
    (closures_total stats300 (by decide)).2.2.2.2.2.2.2.1⟩

/-! ## Width of the accumulator -/

/-- C10. For every well-formed snapshot the integer `total` of `totalGCPause`
equals the sum of the slots `0 .. min(NumGC, 256) - 1` modulo `2^64`, and
equals that sum itself when each of these slots is below `2^56`. -/
theorem totalPause_mod (m : MemStats) (hm : m.Valid) :
    totalPauseNs m = .ok ((m.PauseNs.take (min m.NumGC 256)).sum % 2 ^ 64) ∧
    ((∀ p ∈ m.PauseNs.take (min m.NumGC 256), p < 2 ^ 56) →
      totalPauseNs m = .ok (m.PauseNs.take (min m.NumGC 256)).sum) := by
  have hlen : m.PauseNs.length = 256 := hm.2.2.2.2.2.2.1
  have hmod : totalPauseNs m = .ok ((m.PauseNs.take (min m.NumGC 256)).sum % 2 ^ 64) := by
    have h := foldl_addU64 (m.PauseNs.take (min m.NumGC 256)) 0
    rw [Nat.zero_mod, Nat.zero_add] at h
    rw [totalPauseNs_eq m hlen, h]
  refine ⟨hmod, ?_⟩
  intro hsmall
  have hbound := List.sum_le_card_nsmul (m.PauseNs.take (min m.NumGC 256)) (2 ^ 56 - 1)
    (fun p hp => by have := hsmall p hp; omega)
  have hl : (m.PauseNs.take (min m.NumGC 256)).length ≤ 256 := by
    rw [List.length_take]; omega
  have hlt : (m.PauseNs.take (min m.NumGC 256)).sum < 2 ^ 64 := by
    rw [smul_eq_mul] at hbound
    have : (m.PauseNs.take (min m.NumGC 256)).length * (2 ^ 56 - 1) ≤ 256 * (2 ^ 56 - 1) :=
      Nat.mul_le_mul_right _ hl
    omega
  rw [hmod, Nat.mod_eq_of_lt hlt]

/-- Instance of C10 at a snapshot with 300 cycles: 256 slots of 1000 ns. -/
theorem totalPause_mod_witness :
    stats300.Valid ∧ totalPauseNs stats300 = .ok (256000 % 2 ^ 64) :=
  ⟨by decide, (totalPause_mod stats300 (by decide)).1⟩

/-! ## Counters across scrapes -/

/-- The four counters that convert one cumulative field do not decrease when
that field does not. -/
theorem plain_counters_monotone (m₁ m₂ : MemStats) :
    (m₁.TotalAlloc ≤ m₂.TotalAlloc → ∃ v₁ v₂, totalAllocOf m₁ = .ok v₁ ∧
      totalAllocOf m₂ = .ok v₂ ∧ v₁.val ≤ v₂.val) ∧
    (m₁.Mallocs ≤ m₂.Mallocs → ∃ v₁ v₂, mallocsOf m₁ = .ok v₁ ∧
      mallocsOf m₂ = .ok v₂ ∧ v₁.val ≤ v₂.val) ∧
    (m₁.Frees ≤ m₂.Frees → ∃ v₁ v₂, freesOf m₁ = .ok v₁ ∧
      freesOf m₂ = .ok v₂ ∧ v₁.val ≤ v₂.val) ∧
    (m₁.NumGC ≤ m₂.NumGC → ∃ v₁ v₂, gcCyclesOf m₁ = .ok v₁ ∧
      gcCyclesOf m₂ = .ok v₂ ∧ v₁.val ≤ v₂.val) := by
  refine ⟨fun h => ⟨_, _, rfl, rfl, ?_⟩, fun h => ⟨_, _, rfl, rfl, ?_⟩,
    fun h => ⟨_, _, rfl, rfl, ?_⟩, fun h => ⟨_, _, rfl, rfl, ?_⟩⟩ <;>
  simpa [F64.val] using h

/-- C4, at the failing input. `statsBefore` (256 cycles, every pause one second)
and `statsAfter` (the same process one cycle later, the new pause of 0 ns
written to slot 0 by the ring-buffer rule) are well-formed successive snapshots,
no cumulative field decreases, `totalGCPause` is registered as a Counter, and
its value goes from 256 seconds down to 255 seconds. -/
theorem pause_total_counter_decreases :
    statsBefore.Valid ∧ statsAfter.Valid ∧ statsAfter = gcCycle statsBefore 0 ∧
    statsBefore.TotalAlloc ≤ statsAfter.TotalAlloc ∧
    statsBefore.Mallocs ≤ statsAfter.Mallocs ∧ statsBefore.Frees ≤ statsAfter.Frees ∧
    statsBefore.NumGC = 256 ∧ statsAfter.NumGC = 257 ∧
    totalGCPause.kind = Kind.Counter ∧
    totalGCPauseOf statsBefore = .ok (.ofUintDivE9 256000000000) ∧
    totalGCPauseOf statsAfter = .ok (.ofUintDivE9 255000000000) ∧
    (F64.ofUintDivE9 255000000000).val < (F64.ofUintDivE9 256000000000).val := by
  refine ⟨by decide, by decide, rfl, by decide, by decide, by decide, by decide, by decide,
    rfl, by decide, by decide, ?_⟩
  norm_num [F64.val]

/-! ## Registration -/

/-- C6 as stated fails: the names registered are not the unprefixed names
`mem_alloc_bytes`, ..., `gc_pause_total_seconds`. -/
theorem registered_names_not_unprefixed :
    registered.map (fun d => d.Name) ≠
      ["mem_alloc_bytes", "mem_sys_bytes", "mem_total_alloc_bytes", "mem_mallocs_total",
       "mem_frees_total", "gc_cycles_total", "gc_last_pause_seconds",
       "gc_pause_total_seconds"] := by
  decide

/-- C6, amended. The call to `MustRegister` receives exactly eight metrics, in
this order, named `go_mem_alloc_bytes`, `go_mem_sys_bytes`,
`go_mem_total_alloc_bytes`, `go_mem_mallocs_total`, `go_mem_frees_total`,
`go_gc_cycles_total`, `go_gc_last_pause_seconds`, `go_gc_pause_total_seconds`,
of kinds Gauge, Gauge, Counter, Counter, Counter, Counter, Gauge, Counter. -/
theorem registered_names_kinds :
    registered.length = 8 ∧
    registered.map (fun d => (d.Name, d.kind)) =
      [("go_mem_alloc_bytes", Kind.Gauge), ("go_mem_sys_bytes", Kind.Gauge),
       ("go_mem_total_alloc_bytes", Kind.Counter), ("go_mem_mallocs_total", Kind.Counter),
       ("go_mem_frees_total", Kind.Counter), ("go_gc_cycles_total", Kind.Counter),
       ("go_gc_last_pause_seconds", Kind.Gauge),
       ("go_gc_pause_total_seconds", Kind.Counter)] := by
  exact ⟨rfl, rfl⟩

/-- C7. The eight names passed to `MustRegister` are pairwise distinct, and each
is safe for the exposition format: not empty, first character in `[a-zA-Z_:]`,
every later character in `[a-zA-Z0-9_:]`. -/
theorem registered_names_distinct_safe :
    (registered.map (fun d => d.Name)).Nodup ∧
    registered.all (fun d => expositionSafe d.Name) = true := by
  exact ⟨by decide, by decide⟩

/-! ## Sampling per metric -/

theorem scrape_calls (ms : List Metric)
    (hms : ∀ d ∈ ms, ∀ rt : Runtime, (d.fn rt).2.calls = rt.calls + 1) :
    ∀ rt : Runtime, (scrape ms rt).2.calls = rt.calls + ms.length := by
  induction ms with
  | nil => intro rt; rfl
  | cons d ds ih =>
    intro rt
    have hd := hms d (List.mem_cons_self _ _) rt
    have hds := ih (fun e he => hms e (List.mem_cons_of_mem _ he)) (d.fn rt).2
    simp only [scrape, List.length_cons]
    rw [hds, hd]
    omega

theorem registered_fn_once (d : Metric) (hd : d ∈ registered) (rt : Runtime) :
    (d.fn rt).2.calls = rt.calls + 1 ∧ (d.fn rt).2.stats = rt.stats := by
  simp only [registered, List.mem_cons, List.mem_singleton, List.not_mem_nil, or_false] at hd
  rcases hd with h | h | h | h | h | h | h | h <;> subst h <;> exact ⟨rfl, rfl⟩

theorem scrape_result (order : List Metric) (horder : ∀ d ∈ order, d ∈ registered) :
    ∀ (rt : Runtime) (k : Nat) (d : Metric), order[k]? = some d →
      (scrape order rt).1[k]? = some (d.Name, (d.fn ⟨rt.stats, rt.calls + k⟩).1) := by
  induction order with
  | nil => intro rt k d h; simp at h
  | cons e es ih =>
    intro rt k d h
    cases k with
    | zero =>
      simp only [List.getElem?_cons_zero, Option.some.injEq] at h
      subst h
      simp only [scrape, List.getElem?_cons_zero, Nat.add_zero]
    | succ k =>
      simp only [List.getElem?_cons_succ] at h
      have hone := registered_fn_once e (horder e (List.mem_cons_self _ _)) rt
      have hrec := ih (fun x hx => horder x (List.mem_cons_of_mem _ hx)) (e.fn rt).2 k d h
      simp only [scrape, List.getElem?_cons_succ, hrec, hone.1, hone.2]
      have hk : rt.calls + 1 + k = rt.calls + (k + 1) := by omega
      rw [hk]

theorem gcCyclesFn_at (stats : Nat → MemStats) (c : Nat) :
    (gcCycles.fn ⟨stats, c⟩).1 = gcCyclesOf (stats c) := rfl

theorem lastGCPauseFn_at (stats : Nat → MemStats) (c : Nat) :
    (lastGCPause.fn ⟨stats, c⟩).1 = lastGCPauseOf (stats c) := rfl

/-- No single snapshot yields a cycle count of 0 together with a last pause of
7000 ns, nor a cycle count of 1 together with the literal 0 as last pause. -/
theorem no_common_snapshot (m : MemStats) :
    ¬ (gcCyclesOf m = .ok (.ofUint 0) ∧ lastGCPauseOf m = .ok (.ofUintDivE9 7000)) ∧
    ¬ (gcCyclesOf m = .ok (.ofUint 1) ∧ lastGCPauseOf m = .ok .zero) := by
  constructor
  · rintro ⟨hc, hl⟩
    have h0 : m.NumGC = 0 := by
      simp only [gcCyclesOf, Except.ok.injEq, F64.ofUint.injEq] at hc
      exact hc
    simp [lastGCPauseOf, h0] at hl
  · rintro ⟨hc, hl⟩
    have h1 : m.NumGC = 1 := by
      simp only [gcCyclesOf, Except.ok.injEq, F64.ofUint.injEq] at hc
      exact hc
    have hne : ¬ m.NumGC = 0 := by omega
    unfold lastGCPauseOf at hl
    rw [if_neg hne] at hl
    cases hidx : index m.PauseNs (lastPauseIndex m.NumGC) with
    | ok p => rw [hidx] at hl; simp at hl
    | error e => rw [hidx] at hl; simp at hl

/-- C9. Each registered closure makes exactly one call of `ReadMemStats` and its
result depends on that snapshot only. Hence, in whatever order the closures of
one scrape are served, a scrape of the eight registered metrics makes exactly
eight calls (a scrape of any list of registered metrics one call per metric),
and the closure served in position `k` is derived from the snapshot of call
number `calls + k`, so no two metrics share a snapshot. And in whatever
positions `gc_cycles_total` and `gc_last_pause_seconds` are served, for some run
time the two values of one scrape come from different snapshots: no single
snapshot yields both. -/
theorem scrape_samples_per_metric (rt : Runtime) :
    (∀ d ∈ registered, (d.fn rt).2.calls = rt.calls + 1 ∧
      ∀ rt₂ : Runtime, rt₂.stats rt₂.calls = rt.stats rt.calls →
        (d.fn rt₂).1 = (d.fn rt).1) ∧
    (∀ order : List Metric, order.Perm registered →
      (scrape order rt).2.calls = rt.calls + 8) ∧
    (∀ ms : List Metric, (∀ d ∈ ms, d ∈ registered) →
      (scrape ms rt).2.calls = rt.calls + ms.length) ∧
    (∀ order : List Metric, order.Perm registered → ∀ (k : Nat) (d : Metric),
      order[k]? = some d →
        (scrape order rt).1[k]? = some (d.Name, (d.fn ⟨rt.stats, rt.calls + k⟩).1)) ∧
    (∀ order : List Metric, order.Perm registered → ∀ i j : Nat,
      order[i]? = some gcCycles → order[j]? = some lastGCPause →
        i ≠ j ∧
        ∃ (t : Nat) (v₁ v₂ : Except Fault F64),
          (scrape order (skewedRuntime t)).1[i]? = some ("go_gc_cycles_total", v₁) ∧
          (scrape order (skewedRuntime t)).1[j]? = some ("go_gc_last_pause_seconds", v₂) ∧
          (skewedRuntime t).stats i ≠ (skewedRuntime t).stats j ∧
          ¬ ∃ m : MemStats, gcCyclesOf m = v₁ ∧ lastGCPauseOf m = v₂) := by
  refine ⟨?_, ?_, ?_, ?_, ?_⟩
  · intro d hd
    refine ⟨(registered_fn_once d hd rt).1, ?_⟩
    intro rt₂ hsame
    simp only [registered, List.mem_cons, List.mem_singleton, List.not_mem_nil,
      or_false] at hd
    rcases hd with h | h | h | h | h | h | h | h <;> subst h <;>
      simp only [memAlloc, memSys, totalAlloc, mallocs, frees, gcCycles, lastGCPause,
        totalGCPause, memAllocFn, memSysFn, totalAllocFn, mallocsFn, freesFn, gcCyclesFn,
        lastGCPauseFn, totalGCPauseFn, ReadMemStats, hsame]
  · intro order hperm
    have hlen : order.length = 8 := hperm.length_eq
    rw [scrape_calls order
      (fun d hd rt => (registered_fn_once d (hperm.subset hd) rt).1) rt, hlen]
  · intro ms hms
    exact scrape_calls ms (fun d hd rt => (registered_fn_once d (hms d hd) rt).1) rt
  · intro order hperm k d hk
    exact scrape_result order (fun x hx => hperm.subset hx) rt k d hk
  · intro order hperm i j hi hj
    have hsub : ∀ d ∈ order, d ∈ registered := fun x hx => hperm.subset hx
    have hij : i ≠ j := by
      intro h
      subst h
      rw [hi] at hj
      have hname := congrArg Metric.Name (Option.some.inj hj)
      exact absurd hname (by decide)
    refine ⟨hij, ?_⟩
    have hboot : gcCyclesOf bootStats = .ok (.ofUint 0) := rfl
    have hboot' : lastGCPauseOf bootStats = .ok .zero := rfl
    have hcyc : gcCyclesOf (gcCycle bootStats 7000) = .ok (.ofUint 1) := by decide
    have hcyc' : lastGCPauseOf (gcCycle bootStats 7000) = .ok (.ofUintDivE9 7000) := by
      decide
    have hdiff : bootStats ≠ gcCycle bootStats 7000 := by decide
    rcases Nat.lt_or_gt_of_ne hij with hlt | hgt
    · refine ⟨j, .ok (.ofUint 0), .ok (.ofUintDivE9 7000), ?_, ?_, ?_, ?_⟩
      · rw [scrape_result order hsub _ i _ hi, gcCyclesFn_at]
        simp [skewedRuntime, hlt, hboot, gcCycles]
      · rw [scrape_result order hsub _ j _ hj, lastGCPauseFn_at]
        simp [skewedRuntime, hcyc', lastGCPause]
      · simp [skewedRuntime, hlt, hdiff]
      · rintro ⟨m, hm⟩
        exact (no_common_snapshot m).1 hm
    · refine ⟨i, .ok (.ofUint 1), .ok .zero, ?_, ?_, ?_, ?_⟩
      · rw [scrape_result order hsub _ i _ hi, gcCyclesFn_at]
        simp [skewedRuntime, hcyc, gcCycles]
      · rw [scrape_result order hsub _ j _ hj, lastGCPauseFn_at]
        simp [skewedRuntime, hgt, hboot', lastGCPause]
      · simp [skewedRuntime, hgt, hdiff.symm]
      · rintro ⟨m, hm⟩
        exact (no_common_snapshot m).2 hm

/-! ## Routing -/

theorem isPrefixOf_false_of_extends (a b l : List Char) (hab : a.isPrefixOf b = true)
    (h : a.isPrefixOf l = false) : b.isPrefixOf l = false := by
  cases hb : b.isPrefixOf l with
  | false => rfl
  | true =>
    have h₁ : a <+: b := List.isPrefixOf_iff_prefix.mp hab
    have h₂ : b <+: l := List.isPrefixOf_iff_prefix.mp hb
    have h₃ : a.isPrefixOf l = true := List.isPrefixOf_iff_prefix.mpr (h₁.trans h₂)
    rw [h] at h₃
    exact absurd h₃ (by decide)

theorem bestMatch_append (method path : String) (l₁ l₂ : List Pattern) :
    ∀ best, bestMatch method path (l₁ ++ l₂) best =
      bestMatch method path l₂ (bestMatch method path l₁ best) := by
  induction l₁ with
  | nil => intro best; rfl
  | cons e es ih =>
    intro best
    simp only [List.cons_append, bestMatch]
    split
    · split
      · split <;> exact ih _
      · exact ih _
    · exact ih _

theorem bestMatch_none (method path : String) (l : List Pattern)
    (hno : ∀ e ∈ l, matchesPath e.path path = false) :
    ∀ best, bestMatch method path l best = best := by
  induction l with
  | nil => intro best; rfl
  | cons e es ih =>
    intro best
    have he := hno e (List.mem_cons_self _ _)
    simp only [bestMatch, he, Bool.and_false, Bool.false_eq_true, if_false]
    exact ih (fun x hx => hno x (List.mem_cons_of_mem _ hx)) best

/-- A request whose path begins with `/`, is not `/metrics` and is matched by no
imported pattern is served by the pattern `/`. -/
theorem bestMatch_root (imports : List Pattern) (method q : String)
    (hno : ∀ e ∈ imports, matchesPath e.path q = false)
    (hslash : q.toList.head? = some '/') (hmetrics : q ≠ "/metrics") :
    bestMatch method q (muxEntries imports) none = some rootPattern := by
  have hroot : matchesPath "/" q = true := by
    cases hq : q.toList with
    | nil => rw [hq] at hslash; simp at hslash
    | cons c cs =>
      rw [hq] at hslash
      simp only [List.head?_cons, Option.some.injEq] at hslash
      subst hslash
      have hsub : isSubtree "/" = true := by decide
      have hpre : "/".toList.isPrefixOf q.toList = true := by
        rw [hq]; simp [List.isPrefixOf]
      unfold matchesPath
      rw [hsub, hpre]
      simp
  have hmet : matchesPath "/metrics" q = false := by
    have hsub : isSubtree "/metrics" = false := by decide
    have hne : ¬ "/metrics" = q := fun h => hmetrics h.symm
    simp [matchesPath, hsub, hne]
  rw [muxEntries, bestMatch_append, bestMatch_none method q imports hno]
  simp only [mainPatterns, bestMatch, matchesMethod, hmet, hroot, rootPattern,
    Bool.and_false, Bool.and_self, Bool.false_eq_true, if_false, if_true]

/-- A path that is not under `/debug/` is matched by no pattern under
`/debug/`. -/
theorem imports_miss (imports : List Pattern) (path : String)
    (himports : ∀ e ∈ imports, "/debug/".toList.isPrefixOf e.path.toList = true)
    (hdebug : "/debug/".toList.isPrefixOf path.toList = false) :
    ∀ e ∈ imports, matchesPath e.path path = false := by
  intro e he
  have hpre := himports e he
  have h₁ : ¬ e.path = path := by
    intro h
    rw [h, hdebug] at hpre
    exact absurd hpre (by decide)
  have h₂ : e.path.toList.isPrefixOf path.toList = false :=
    isPrefixOf_false_of_extends _ _ _ hpre hdebug
  unfold matchesPath
  rw [h₂, Bool.and_false, Bool.or_false]
  exact decide_eq_false h₁

/-- Appending a slash to a path that is not under `/debug/` gives a path that no
imported pattern matches, when these lie under `/debug/` and none is `/debug/`
itself. -/
theorem imports_miss_slash (imports : List Pattern) (path : String)
    (himports : ∀ e ∈ imports,
      "/debug/".toList.isPrefixOf e.path.toList = true ∧ e.path ≠ "/debug/")
    (hdebug : "/debug/".toList.isPrefixOf path.toList = false) :
    ∀ e ∈ imports, matchesPath e.path (path ++ "/") = false := by
  intro e he
  obtain ⟨hpre, hne⟩ := himports e he
  have hd : "/debug/".toList <+: e.path.toList := List.isPrefixOf_iff_prefix.mp hpre
  have hnd : ¬ "/debug/".toList <+: path.toList := by
    intro h
    rw [List.isPrefixOf_iff_prefix.mpr h] at hdebug
    exact absurd hdebug (by decide)
  have hq : (path ++ "/").toList = path.toList ++ ['/'] := rfl
  have key : ¬ e.path.toList <+: (path ++ "/").toList := by
    intro h
    have hdq : "/debug/".toList <+: path.toList ++ ['/'] := by
      rw [← hq]; exact hd.trans h
    rcases List.prefix_concat_iff.mp hdq with heq | hlt
    · have hlen : e.path.toList.length = "/debug/".toList.length := by
        have h₁ : "/debug/".toList.length ≤ e.path.toList.length := hd.length_le
        have h₂ : e.path.toList.length ≤ (path ++ "/").toList.length := h.length_le
        have h₃ : (path ++ "/").toList.length = "/debug/".toList.length := by
          rw [hq, ← heq]
        omega
      have hsame : "/debug/".toList = e.path.toList := hd.eq_of_length hlen.symm
      exact hne (String.toList_inj.mp hsame.symm)
    · exact hnd hlt
  have h₁ : ¬ e.path = path ++ "/" := by
    intro h
    exact key (h ▸ List.prefix_refl _)
  have h₂ : e.path.toList.isPrefixOf (path ++ "/").toList = false := by
    cases hb : e.path.toList.isPrefixOf (path ++ "/").toList with
    | false => rfl
    | true => exact absurd (List.isPrefixOf_iff_prefix.mp hb) key
  unfold matchesPath
  rw [h₂, Bool.and_false, Bool.or_false]
  exact decide_eq_false h₁

/-- A request for a canonical path outside `/metrics` and `/debug/` is answered by
the help banner. -/
theorem route_banner (imports : List Pattern) (method path : String)
    (himports : ∀ e ∈ imports,
      "/debug/".toList.isPrefixOf e.path.toList = true ∧ e.path ≠ "/debug/")
    (hclean : cleanPath path = path) (hslash : path.toList.head? = some '/')
    (hmetrics : path ≠ "/metrics")
    (hdebug : "/debug/".toList.isPrefixOf path.toList = false) :
    route imports method path = Handler.helpBanner := by
  have hcp : (if method = "CONNECT" then path else cleanPath path) = path := by
    split
    · rfl
    · exact hclean
  have hn : bestMatch method path (muxEntries imports) none = some rootPattern :=
    bestMatch_root imports method path
      (imports_miss imports path (fun e he => (himports e he).1) hdebug) hslash hmetrics
  have hne : path.toList ≠ [] := by
    intro h; rw [h] at hslash; simp at hslash
  have hslash₂ : (path ++ "/").toList.head? = some '/' := by
    show (path.toList ++ ['/']).head? = some '/'
    cases hp : path.toList with
    | nil => exact absurd hp hne
    | cons c cs => rw [hp] at hslash; simpa using hslash
  have hmetrics₂ : path ++ "/" ≠ "/metrics" := by
    intro h
    have hl := congrArg (fun s : String => s.toList.getLast?) h
    have hl₁ : (path ++ "/").toList.getLast? = some '/' := by
      show (path.toList ++ ['/']).getLast? = some '/'
      exact List.getLast?_concat _
    simp only [hl₁] at hl
    exact absurd hl (by decide)
  have hn₂ : bestMatch method (path ++ "/") (muxEntries imports) none = some rootPattern :=
    bestMatch_root imports method (path ++ "/")
      (imports_miss_slash imports path himports hdebug) hslash₂ hmetrics₂
  have hex₂ : exactMatch (some rootPattern) (path ++ "/") = false := by
    have : ¬ "/" = path ++ "/" := by
      intro h
      have hl := congrArg (fun s : String => s.toList.length) h
      have hl₁ : (path ++ "/").toList.length = path.toList.length + 1 := by
        show (path.toList ++ ['/']).length = _
        simp
      simp only [hl₁] at hl
      have : path.toList.length = 0 := by
        have h1 : "/".toList.length = 1 := by decide
        omega
      exact hne (List.length_eq_zero.mp this)
    simp [exactMatch, rootPattern, this]
  simp only [route, serve, hcp, hn, hn₂, hex₂, Bool.and_false, Bool.false_eq_true,
    if_false, ne_eq, not_true_eq_false]
  rfl

/-- C8 as stated fails: `/foo` is not `/metrics`, not `/` and not under
`/debug/`, and a `GET` for it is answered by the help banner, not by the
not-found handler. -/
theorem unknown_path_gets_banner :
    "/foo" ≠ "/metrics" ∧ "/foo" ≠ "/" ∧ "/debug/".toList.isPrefixOf "/foo".toList = false ∧
      route knownImports "GET" "/foo" = Handler.helpBanner ∧
      route knownImports "GET" "/foo" ≠ Handler.notFound := by
  decide

/-- C8, amended. Whatever patterns the imports registered, provided they lie
under `/debug/` (and none is `/debug/` itself): every request, of any method,
whose path is in canonical form, begins with `/`, is not `/metrics` and is not
under `/debug/` is answered by the help banner registered on `/`, whose text
names `/metrics` and `/debug/pprof/`, and not by the not-found handler; the
path `/` is one of these paths. A path that begins with `/` and is not in
canonical form is answered by a redirect (for every method but `CONNECT`). -/
theorem route_catch_all (imports : List Pattern) (method path : String)
    (himports : ∀ e ∈ imports,
      "/debug/".toList.isPrefixOf e.path.toList = true ∧ e.path ≠ "/debug/")
    (hclean : cleanPath path = path) (hslash : path.toList.head? = some '/')
    (hmetrics : path ≠ "/metrics")
    (hdebug : "/debug/".toList.isPrefixOf path.toList = false) :
    route imports method path = Handler.helpBanner ∧
    route imports method path ≠ Handler.notFound ∧
    route imports method "/" = Handler.helpBanner ∧
    helpBannerText = ["GC and Memory Monitoring Server\n",
      "Visit /metrics for Prometheus metrics\n", "Visit /debug/pprof/ for profiling\n"] ∧
    (∀ other : String, method ≠ "CONNECT" → other.toList.head? = some '/' →
      cleanPath other ≠ other →
      ∃ target, route imports method other = Handler.redirect target) := by
  have hb := route_banner imports method path himports hclean hslash hmetrics hdebug
  refine ⟨hb, ?_, ?_, rfl, ?_⟩
  · rw [hb]; decide
  · exact route_banner imports method "/" himports (by decide) (by decide) (by decide)
      (by decide)
  · intro other hmethod _ hother
    simp only [route, serve, hmethod, if_false]
    split
    · exact ⟨_, rfl⟩
    · exact ⟨_, rfl⟩

/-- Instance of C8 (amended) at the path `/favicon.ico` with the known imports. -/
theorem route_catch_all_witness :
    (∀ e ∈ knownImports,
      "/debug/".toList.isPrefixOf e.path.toList = true ∧ e.path ≠ "/debug/") ∧
      cleanPath "/favicon.ico" = "/favicon.ico" ∧
      "/favicon.ico".toList.head? = some '/' ∧ "/favicon.ico" ≠ "/metrics" ∧
      "/debug/".toList.isPrefixOf "/favicon.ico".toList = false ∧
      route knownImports "GET" "/favicon.ico" = Handler.helpBanner :=
  ⟨by decide, by decide, by decide, by decide, by decide,
    (route_catch_all knownImports "GET" "/favicon.ico" (by decide) (by decide) (by decide)
      (by decide) (by decide)).1⟩

end GCMon
